import Mathlib

/-
  Shallow embedding of fraud_checker.py, the fraud scoring engine for
  resume text.  Text is modelled as List Char; the regular expressions of
  the source are modelled as direct scanning functions with the same
  match semantics (leftmost match, greedy quantifiers; for each pattern of
  the source the committed left-to-right matcher is equivalent to the
  backtracking regex because every optional piece starts with a character
  class disjoint from what follows it).  Reason strings are modelled by an
  inductive type with one constructor per distinct format string of the
  source.  The ambient current year (datetime.now().year in the source) is
  passed as an explicit parameter.
-/

set_option maxRecDepth 20000

-- ── Character classes (ASCII, as used by the regexes of the source) ──

def isLowAlpha (c : Char) : Bool := ('a' ≤ c) && (c ≤ 'z')

def isUpAlpha (c : Char) : Bool := ('A' ≤ c) && (c ≤ 'Z')

def isAlphaCh (c : Char) : Bool := isLowAlpha c || isUpAlpha c

def isDigitCh (c : Char) : Bool := ('0' ≤ c) && (c ≤ '9')

/-- The regex word-character class, as used by the word boundary assertion. -/
def isWordCh (c : Char) : Bool := isAlphaCh c || isDigitCh c || (c == '_')

/-- Python str.strip / str.split whitespace and the regex whitespace class,
restricted to ASCII: space, tab, newline, carriage return, form feed,
vertical tab. -/
def isSpaceCh (c : Char) : Bool :=
  (c == ' ') || (c == '\t') || (c == '\n') || (c == '\r') || (c == '\x0c') || (c == '\x0b')

/-- ASCII lowercasing, modelling str.lower on the characters relevant here. -/
def toLowerCh (c : Char) : Char :=
  if isUpAlpha c then Char.ofNat (c.toNat + 32) else c

/-- Python str.strip: remove whitespace from both ends. -/
def pyStrip (cs : List Char) : List Char :=
  ((cs.dropWhile isSpaceCh).reverse.dropWhile isSpaceCh).reverse

/-- Match a literal (given lowercased) case-insensitively at the head of the
text; on success return the remaining text. -/
def dropLitCI : List Char → List Char → Option (List Char)
  | [], cs => some cs
  | _ :: _, [] => none
  | l :: ls, c :: cs => if toLowerCh c == l then dropLitCI ls cs else none

/-- re.search: try the position matcher at every suffix, leftmost first. -/
def searchTails (f : List Char → Option α) (cs : List Char) : Option α :=
  cs.tails.findSome? f

-- ── GITHUB_PATTERN and LINKEDIN_PATTERN ──────────────────────────────

/-- The optional scheme piece of the profile-URL patterns. -/
def schemeDrop (cs : List Char) : List Char :=
  match dropLitCI ("https://").data cs with
  | some r => r
  | none =>
    match dropLitCI ("http://").data cs with
    | some r => r
    | none => cs

/-- The optional www piece of the profile-URL patterns. -/
def wwwDrop (cs : List Char) : List Char :=
  match dropLitCI ("www.").data cs with
  | some r => r
  | none => cs

/-- The handle character class of the profile-URL patterns. -/
def isHandleCh (c : Char) : Bool := isAlphaCh c || isDigitCh c || (c == '_') || (c == '-')

/-- Match GITHUB_PATTERN at this position; return the captured handle. -/
def githubMatchAt (cs : List Char) : Option (List Char) :=
  match dropLitCI ("github.com/").data (wwwDrop (schemeDrop cs)) with
  | none => none
  | some r =>
    let h := r.takeWhile isHandleCh
    if h.isEmpty then none else some h

def githubSearch (cs : List Char) : Option (List Char) :=
  searchTails githubMatchAt cs

/-- Match LINKEDIN_PATTERN at this position; return the captured handle. -/
def linkedinMatchAt (cs : List Char) : Option (List Char) :=
  match dropLitCI ("linkedin.com/in/").data (wwwDrop (schemeDrop cs)) with
  | none => none
  | some r =>
    let h := r.takeWhile isHandleCh
    if h.isEmpty then none else some h

def linkedinSearch (cs : List Char) : Option (List Char) :=
  searchTails linkedinMatchAt cs

-- ── NAME_PATTERN ─────────────────────────────────────────────────────

/-- Match one capitalized word: an uppercase letter followed by one or more
lowercase letters.  Returns the word and the remaining text. -/
def nameWordAt (cs : List Char) : Option (List Char × List Char) :=
  match cs with
  | [] => none
  | c :: rest =>
    if isUpAlpha c then
      let low := rest.takeWhile isLowAlpha
      if low.isEmpty then none else some (c :: low, rest.drop low.length)
    else none

/-- Greedily match up to k further repetitions of whitespace followed by a
capitalized word, returning the captured characters. -/
def nameMore : Nat → List Char → List Char
  | 0, _ => []
  | k + 1, cs =>
    let sp := cs.takeWhile isSpaceCh
    if sp.isEmpty then []
    else
      match nameWordAt (cs.drop sp.length) with
      | none => []
      | some (w, rest) => sp ++ w ++ nameMore k rest

/-- Match NAME_PATTERN (anchored) at this position; return group 1. -/
def nameMatchAt (cs : List Char) : Option (List Char) :=
  match nameWordAt cs with
  | none => none
  | some (w, rest) => some (w ++ nameMore 3 rest)

/-- The suffixes of the text that start just after a newline: together with
the whole text these are the positions where the MULTILINE anchor holds. -/
def lineTails : List Char → List (List Char)
  | [] => []
  | c :: cs => if c == '\n' then cs :: lineTails cs else lineTails cs

/-- fraud_checker extract_name: first NAME_PATTERN match, stripped, else empty. -/
def extract_name (cs : List Char) : List Char :=
  match (cs :: lineTails cs).findSome? nameMatchAt with
  | some r => pyStrip r
  | none => []

-- ── name matching (normalize and name_matches of the source) ─────────

/-- fraud_checker normalize: lowercase then keep only the letters a-z. -/
def normalizeName (cs : List Char) : List Char :=
  (cs.map toLowerCh).filter isLowAlpha

def startsWithL : List Char → List Char → Bool
  | [], _ => true
  | _ :: _, [] => false
  | p :: ps, c :: cs => (p == c) && startsWithL ps cs

/-- Python substring containment test. -/
def isSubList (p s : List Char) : Bool :=
  s.tails.any (fun t => startsWithL p t)

/-- Python str.split with no separator: split on whitespace runs, dropping
empty pieces.  The first argument accumulates the current word reversed. -/
def pySplit : List Char → List Char → List (List Char)
  | cur, [] => if cur.isEmpty then [] else [cur.reverse]
  | cur, c :: cs =>
    if isSpaceCh c then
      if cur.isEmpty then pySplit [] cs else cur.reverse :: pySplit [] cs
    else pySplit (c :: cur) cs

/-- fraud_checker name_matches: some part of the candidate name of length
more than 2 is a substring of the normalized profile username. -/
def name_matches (candidateName userName : List Char) : Bool :=
  if candidateName.isEmpty || userName.isEmpty then false
  else
    let norm := normalizeName userName
    let parts := pySplit [] (candidateName.map toLowerCh)
    parts.any (fun part => decide (2 < part.length) && isSubList part norm)

-- ── YEAR_PATTERN and extract_graduation_year ─────────────────────────

/-- Group 1 of YEAR_PATTERN: the alternation matching 19 or 20. -/
def yearHeadVal (c d : Char) : Option Nat :=
  if c == '1' && d == '9' then some 19
  else if c == '2' && d == '0' then some 20
  else none

/-- re.findall over YEAR_PATTERN.  The pattern has one capturing group, the
leading 19-or-20 alternation, so findall yields the text of that group for
each non-overlapping match; here the group text is returned already
converted to a number as int does in the source.  The boolean argument
records whether the character just before the current position is a word
character, which decides the leading word-boundary assertion.  The scan
advances one character at a time even after a match: this is equivalent to
the non-overlapping skip of findall, because all four matched characters
are word characters, so no later match can begin inside them (its leading
word-boundary test would fail). -/
def yearHitAt (prevW : Bool) (c : Char) (cs : List Char) : List Nat :=
  match cs with
  | d2 :: d3 :: d4 :: rest =>
    match yearHeadVal c d2 with
    | some g =>
      if !prevW && isDigitCh d3 && isDigitCh d4 &&
          (match rest with | [] => true | r :: _ => !isWordCh r) then
        [g]
      else []
    | none => []
  | _ => []

def yearFindAll : Bool → List Char → List Nat
  | _, [] => []
  | prevW, c :: cs => yearHitAt prevW c cs ++ yearFindAll (isWordCh c) cs

/-- fraud_checker extract_graduation_year: findall group texts as ints,
filtered to the range 1970..2099, then the minimum, else none. -/
def extract_graduation_year (cs : List Char) : Option Nat :=
  let years := yearFindAll false cs
  let gradCandidates := years.filter (fun y => decide (1970 ≤ y) && decide (y ≤ 2099))
  gradCandidates.min?

-- ── EXPERIENCE_PATTERN and extract_experience_years ──────────────────

def natOfDigits (ds : List Char) : Nat :=
  ds.foldl (fun n c => n * 10 + (c.toNat - ('0').toNat)) 0

/-- Match EXPERIENCE_PATTERN at this position; return group 1 as a number.
The required part is digits, an optional plus sign, optional whitespace and
then the years-or-yrs alternation; everything after that is optional. -/
def expMatchAt (cs : List Char) : Option Nat :=
  let ds := cs.takeWhile isDigitCh
  if ds.isEmpty then none
  else
    let r1 := cs.drop ds.length
    let r2 := match r1 with
      | '+' :: t => t
      | _ => r1
    let r3 := r2.dropWhile isSpaceCh
    if (dropLitCI ("year").data r3).isSome || (dropLitCI ("yr").data r3).isSome then
      some (natOfDigits ds)
    else none

/-- fraud_checker extract_experience_years: first match wins. -/
def extract_experience_years (cs : List Char) : Option Nat :=
  searchTails expMatchAt cs

-- ── Repeated-word detection ──────────────────────────────────────────

/-- Tokenizer for the repeated-word rule: maximal runs of 3 or more letters.
The first argument accumulates the current run reversed. -/
def wordsGo : List Char → List Char → List (List Char)
  | cur, [] => if 3 ≤ cur.length then [cur.reverse] else []
  | cur, c :: cs =>
    if isAlphaCh c then wordsGo (c :: cur) cs
    else if 3 ≤ cur.length then cur.reverse :: wordsGo [] cs
    else wordsGo [] cs

/-- The words list of the source: findall of letter runs over the
lowercased text. -/
def wordsOf (cs : List Char) : List (List Char) :=
  wordsGo [] (cs.map toLowerCh)

/-- One insertion into the Counter: increment the existing entry in place,
else append a fresh entry at the end, exactly as dict insertion order does. -/
def bumpCount (w : List Char) : List (List Char × Nat) → List (List Char × Nat)
  | [] => [(w, 1)]
  | (x, n) :: rest => if x = w then (x, n + 1) :: rest else (x, n) :: bumpCount w rest

/-- collections.Counter(words) as an ordered association list. -/
def countsOf (ws : List (List Char)) : List (List Char × Nat) :=
  ws.foldl (fun acc w => bumpCount w acc) []

/-- The repeated list of the source: tokens whose count exceeds 25, in
Counter iteration order. -/
def repeatedOf (cs : List Char) : List (List Char) :=
  ((countsOf (wordsOf cs)).filter (fun p => decide (25 < p.2))).map Prod.fst

-- ── Report data model ────────────────────────────────────────────────

inductive FraudStatus
  | Genuine
  | Suspicious
deriving DecidableEq

/-- One constructor per distinct reason format string of the source. -/
inductive Reason
  | shortText
  | missingGithub
  | missingLinkedin
  | githubMismatch (userName candidateName : List Char)
  | linkedinMismatch (userName candidateName : List Char)
  | futureGrad (year : Nat)
  | timelineMismatch (claimed grad maxPossible : Nat)
  | excessRepetition (tokens : List (List Char))
  | unrealisticExp (years : Nat)
deriving DecidableEq

structure FraudReport where
  filename : List Char
  fraud_score : Nat
  fraud_status : FraudStatus
  reasons : List Reason
  extracted_preview : List Char
deriving DecidableEq

-- ── The scoring rules of check_fraud, one definition per rule ────────

def ghPresence : Option (List Char) → Nat × List Reason
  | none => (25, [Reason.missingGithub])
  | some _ => (0, [])

def liPresence : Option (List Char) → Nat × List Reason
  | none => (25, [Reason.missingLinkedin])
  | some _ => (0, [])

def ghConsistency (gh : Option (List Char)) (cand : List Char) : Nat × List Reason :=
  match gh with
  | some user =>
    if !cand.isEmpty && !name_matches cand user then
      (30, [Reason.githubMismatch user cand])
    else (0, [])
  | none => (0, [])

def liConsistency (li : Option (List Char)) (cand : List Char) : Nat × List Reason :=
  match li with
  | some user =>
    if !cand.isEmpty && !name_matches cand user then
      (30, [Reason.linkedinMismatch user cand])
    else (0, [])
  | none => (0, [])

/-- Future graduation year rule; the inequality only fires when the year is
truthy in the Python sense, hence the nonzero guard. -/
def futureGradRule (grad : Option Nat) (currentYear : Nat) : Nat × List Reason :=
  match grad with
  | some g => if g ≠ 0 ∧ currentYear < g then (20, [Reason.futureGrad g]) else (0, [])
  | none => (0, [])

/-- Experience-versus-graduation rule.  max possible is computed as a signed
difference and the rule only fires when it is non-negative. -/
def timelineRule (grad expY : Option Nat) (currentYear : Nat) : Nat × List Reason :=
  match grad, expY with
  | some g, some e =>
    if g ≠ 0 ∧ e ≠ 0 then
      let maxPossible : Int := (currentYear : Int) - (g : Int)
      if 0 ≤ maxPossible ∧ maxPossible < (e : Int) then
        (30, [Reason.timelineMismatch e g maxPossible.toNat])
      else (0, [])
    else (0, [])
  | _, _ => (0, [])

/-- Repeated-word rule: a flat 15 once, with the first 5 repeated tokens. -/
def repetitionRule (cs : List Char) : Nat × List Reason :=
  let repeated := repeatedOf cs
  if repeated.isEmpty then (0, [])
  else (15, [Reason.excessRepetition (repeated.take 5)])

/-- The additive part of the score, rules in source order. -/
def baseScore (cs : List Char) (currentYear : Nat) : Nat :=
  (ghPresence (githubSearch cs)).1 + (liPresence (linkedinSearch cs)).1 +
  (ghConsistency (githubSearch cs) (extract_name cs)).1 +
  (liConsistency (linkedinSearch cs) (extract_name cs)).1 +
  (futureGradRule (extract_graduation_year cs) currentYear).1 +
  (timelineRule (extract_graduation_year cs) (extract_experience_years cs) currentYear).1 +
  (repetitionRule cs).1

/-- The reasons of the additive rules, in source order. -/
def baseReasons (cs : List Char) (currentYear : Nat) : List Reason :=
  (ghPresence (githubSearch cs)).2 ++ (liPresence (linkedinSearch cs)).2 ++
  (ghConsistency (githubSearch cs) (extract_name cs)).2 ++
  (liConsistency (linkedinSearch cs) (extract_name cs)).2 ++
  (futureGradRule (extract_graduation_year cs) currentYear).2 ++
  (timelineRule (extract_graduation_year cs) (extract_experience_years cs) currentYear).2 ++
  (repetitionRule cs).2

/-- The unrealistic-experience override: a floor of 50, not an addition. -/
def overrideScore (s : Nat) (expY : Option Nat) : Nat :=
  match expY with
  | some e => if e ≠ 0 ∧ 40 < e then max s 50 else s
  | none => s

def overrideReasons (expY : Option Nat) : List Reason :=
  match expY with
  | some e => if e ≠ 0 ∧ 40 < e then [Reason.unrealisticExp e] else []
  | none => []

/-- fraud_checker check_fraud: the full report. -/
def check_fraud (text fname : List Char) (currentYear : Nat) : FraudReport :=
  if (pyStrip text).length < 50 then
    { filename := fname
      fraud_score := 100
      fraud_status := FraudStatus.Suspicious
      reasons := [Reason.shortText]
      extracted_preview := text.take 300 }
  else
    let expY := extract_experience_years text
    let s := overrideScore (baseScore text currentYear) expY
    let finalScore := min s 100
    { filename := fname
      fraud_score := finalScore
      fraud_status := if 50 ≤ finalScore then FraudStatus.Suspicious else FraudStatus.Genuine
      reasons := baseReasons text currentYear ++ overrideReasons expY
      extracted_preview := text.take 300 }

/-- Recognizer for the repetition reason, used to isolate the contribution
of the repeated-word rule inside a report. -/
def isRepReason : Reason → Bool
  | Reason.excessRepetition _ => true
  | _ => false

-- ── Concrete fixture texts ───────────────────────────────────────────

/-- A resume text of trimmed length at least 50 containing the year 2020. -/
def c1Text : List Char :=
  ("Jane Doe graduated in 2020 from a fine university with honors").data

/-- The scenario resume of the specification: first capitalized line
John Smith, both profile links with matching handles, the graduation year
2020 and the phrase 5 years of experience. -/
def c2Text : List Char :=
  ("John Smith\ngithub.com/johnsmith99\nlinkedin.com/in/johnsmith\nGraduated 2020\n5 years of experience in software engineering").data

/-- A long-enough resume with no profile links, no experience phrase and no
repeated words. -/
def c6Text : List Char :=
  ("This resume describes a capable software developer with broad skills.").data

/-- A text consisting of one token repeated 26 times. -/
def c7Text : List Char := (List.replicate 26 (("skill ").data)).flatten

/-- An otherwise clean resume claiming 42 years of experience. -/
def c8Text : List Char :=
  ("John Smith\ngithub.com/johnsmith\nlinkedin.com/in/johnsmith\nA veteran with 42 years of experience in software").data

-- ── Helper lemmas: the year scanner only ever yields 19 or 20 ────────

theorem yearHeadVal_cases (c d : Char) (g : Nat) (h : yearHeadVal c d = some g) :
    g = 19 ∨ g = 20 := by
  unfold yearHeadVal at h
  split_ifs at h <;> simp_all

theorem yearHitAt_mem (b : Bool) (c : Char) (cs : List Char) (g : Nat)
    (h : g ∈ yearHitAt b c cs) : g = 19 ∨ g = 20 := by
  rcases cs with _ | ⟨d2, _ | ⟨d3, _ | ⟨d4, rest⟩⟩⟩ <;>
    simp only [yearHitAt] at h
  · simp at h
  · simp at h
  · simp at h
  · cases hv : yearHeadVal c d2 with
    | none => rw [hv] at h; simp at h
    | some g2 =>
      rw [hv] at h
      dsimp only at h
      have hg : g = g2 := by
        split at h
        · simpa using h
        · simp at h
      exact hg ▸ yearHeadVal_cases c d2 g2 hv

theorem yearFindAll_mem : ∀ (cs : List Char) (b : Bool) (g : Nat),
    g ∈ yearFindAll b cs → g = 19 ∨ g = 20 := by
  intro cs
  induction cs with
  | nil => intro b g h; simp [yearFindAll] at h
  | cons c cs ih =>
    intro b g h
    rw [yearFindAll] at h
    rcases List.mem_append.mp h with h1 | h2
    · exact yearHitAt_mem b c cs g h1
    · exact ih (isWordCh c) g h2

/-- The graduation-year extractor of the source returns none on every
input: findall yields the text of the capturing group, 19 or 20, never the
full 4-digit match, so the range filter 1970..2099 removes everything. -/
theorem grad_none (cs : List Char) : extract_graduation_year cs = none := by
  have h : ∀ y ∈ yearFindAll false cs,
      ¬((decide (1970 ≤ y) && decide (y ≤ 2099)) = true) := by
    intro y hy
    rcases yearFindAll_mem cs false y hy with rfl | rfl <;> decide
  have hrw : extract_graduation_year cs =
      ((yearFindAll false cs).filter (fun y => decide (1970 ≤ y) && decide (y ≤ 2099))).min? :=
    rfl
  rw [hrw, List.filter_eq_nil_iff.mpr h]
  rfl

-- ── First-occurrence-order characterization of the Counter model ─────

/-- Number of occurrences of a token in the words list. -/
def countOcc (w : List Char) : List (List Char) → Nat
  | [] => 0
  | x :: xs => (if x = w then 1 else 0) + countOcc w xs

/-- The elements of a list in order of first occurrence, skipping the ones
already seen. -/
def firstOccurAux : List (List Char) → List (List Char) → List (List Char)
  | _, [] => []
  | seen, w :: ws =>
    if w ∈ seen then firstOccurAux seen ws else w :: firstOccurAux (w :: seen) ws

/-- The elements of a list in order of first occurrence. -/
def firstOccur (ws : List (List Char)) : List (List Char) := firstOccurAux [] ws

theorem mem_firstOccurAux : ∀ (ws seen : List (List Char)) (x : List Char),
    x ∈ firstOccurAux seen ws ↔ x ∈ ws ∧ x ∉ seen := by
  intro ws
  induction ws with
  | nil => intro seen x; simp [firstOccurAux]
  | cons w ws ih =>
    intro seen x
    by_cases hw : w ∈ seen
    · rw [firstOccurAux, if_pos hw, ih, List.mem_cons]
      constructor
      · rintro ⟨h1, h2⟩
        exact ⟨Or.inr h1, h2⟩
      · rintro ⟨h1 | h1, h2⟩
        · exact absurd (h1 ▸ hw) h2
        · exact ⟨h1, h2⟩
    · rw [firstOccurAux, if_neg hw]
      simp only [List.mem_cons, ih]
      constructor
      · rintro (rfl | ⟨h1, h2⟩)
        · exact ⟨Or.inl rfl, hw⟩
        · exact ⟨Or.inr h1, fun hs => h2 (Or.inr hs)⟩
      · rintro ⟨h1 | h1, h2⟩
        · exact Or.inl h1
        · by_cases hxw : x = w
          · exact Or.inl hxw
          · exact Or.inr ⟨h1, fun hs => hs.elim hxw h2⟩

theorem nodup_firstOccurAux : ∀ (ws seen : List (List Char)),
    (firstOccurAux seen ws).Nodup := by
  intro ws
  induction ws with
  | nil => intro seen; simp [firstOccurAux]
  | cons w ws ih =>
    intro seen
    by_cases hw : w ∈ seen
    · rw [firstOccurAux, if_pos hw]; exact ih seen
    · rw [firstOccurAux, if_neg hw, List.nodup_cons]
      refine ⟨?_, ih (w :: seen)⟩
      intro hmem
      exact ((mem_firstOccurAux ws (w :: seen) w).mp hmem).2 (List.mem_cons_self w seen)

theorem firstOccurAux_append : ∀ (ws seen : List (List Char)) (w : List Char),
    firstOccurAux seen (ws ++ [w]) =
      firstOccurAux seen ws ++ (if w ∈ seen ∨ w ∈ ws then [] else [w]) := by
  intro ws
  induction ws with
  | nil =>
    intro seen w
    by_cases h : w ∈ seen <;> simp [firstOccurAux, h]
  | cons x ws ih =>
    intro seen w
    by_cases hx : x ∈ seen
    · rw [List.cons_append, firstOccurAux, if_pos hx, firstOccurAux, if_pos hx, ih]
      by_cases hw : w ∈ seen ∨ w ∈ ws
      · rw [if_pos hw, if_pos ?_]
        rcases hw with hw | hw
        · exact Or.inl hw
        · exact Or.inr (List.mem_cons_of_mem x hw)
      · rw [if_neg hw, if_neg ?_]
        rintro (h1 | h1)
        · exact hw (Or.inl h1)
        · rcases List.mem_cons.mp h1 with rfl | h1
          · exact hw (Or.inl hx)
          · exact hw (Or.inr h1)
    · rw [List.cons_append, firstOccurAux, if_neg hx, firstOccurAux, if_neg hx, ih,
        List.cons_append]
      by_cases hw : w ∈ seen ∨ w ∈ x :: ws
      · rw [if_pos ?_, if_pos hw]
        rcases hw with hw | hw
        · exact Or.inl (List.mem_cons_of_mem x hw)
        · rcases List.mem_cons.mp hw with rfl | hw
          · exact Or.inl (List.mem_cons_self w seen)
          · exact Or.inr hw
      · rw [if_neg ?_, if_neg hw]
        rintro (h1 | h1)
        · rcases List.mem_cons.mp h1 with rfl | h1
          · exact hw (Or.inr (List.mem_cons_self w ws))
          · exact hw (Or.inl h1)
        · exact hw (Or.inr (List.mem_cons_of_mem x h1))

theorem countOcc_append (w v : List Char) (ws : List (List Char)) :
    countOcc w (ws ++ [v]) = countOcc w ws + (if v = w then 1 else 0) := by
  induction ws with
  | nil => simp [countOcc]
  | cons x ws ih => simp [countOcc, ih, Nat.add_assoc]

theorem countOcc_eq_zero (w : List Char) (ws : List (List Char)) (h : w ∉ ws) :
    countOcc w ws = 0 := by
  induction ws with
  | nil => rfl
  | cons x ws ih =>
    have hx : ¬(x = w) := fun e => h (e ▸ List.mem_cons_self x ws)
    have hw : w ∉ ws := fun hc => h (List.mem_cons_of_mem x hc)
    simp [countOcc, hx, ih hw]

theorem mem_of_countOcc_pos (w : List Char) (ws : List (List Char))
    (h : 0 < countOcc w ws) : w ∈ ws := by
  by_contra hc
  rw [countOcc_eq_zero w ws hc] at h
  exact Nat.lt_irrefl 0 h

theorem bumpCount_map_notMem (w : List Char) (f : List Char → Nat) :
    ∀ (l : List (List Char)), w ∉ l →
      bumpCount w (l.map (fun x => (x, f x))) = l.map (fun x => (x, f x)) ++ [(w, 1)] := by
  intro l
  induction l with
  | nil => intro _; rfl
  | cons x l ih =>
    intro h
    have hx : ¬(x = w) := fun e => h (e ▸ List.mem_cons_self x l)
    have hw : w ∉ l := fun hc => h (List.mem_cons_of_mem x hc)
    simp only [List.map_cons, bumpCount, if_neg hx, ih hw, List.cons_append]

theorem bumpCount_map_mem (w : List Char) (f : List Char → Nat) :
    ∀ (l : List (List Char)), l.Nodup → w ∈ l →
      bumpCount w (l.map (fun x => (x, f x))) =
        l.map (fun x => (x, if x = w then f x + 1 else f x)) := by
  intro l
  induction l with
  | nil => intro _ h; simp at h
  | cons x l ih =>
    intro hnd hmem
    obtain ⟨hxl, hnd2⟩ := List.nodup_cons.mp hnd
    by_cases hxw : x = w
    · subst hxw
      simp only [List.map_cons, bumpCount, if_true]
      congr 1
      apply List.map_congr_left
      intro y hy
      have hyx : ¬(y = x) := fun e => hxl (e ▸ hy)
      rw [if_neg hyx]
    · have hw : w ∈ l := by
        rcases List.mem_cons.mp hmem with h | h
        · exact absurd h.symm hxw
        · exact h
      simp only [List.map_cons, bumpCount, if_neg hxw, ih hnd2 hw]

theorem countsOf_append (ws : List (List Char)) (w : List Char) :
    countsOf (ws ++ [w]) = bumpCount w (countsOf ws) := by
  simp [countsOf, List.foldl_append]

theorem countsOf_eq (ws : List (List Char)) :
    countsOf ws = (firstOccur ws).map (fun x => (x, countOcc x ws)) := by
  induction ws using List.reverseRecOn with
  | nil => rfl
  | append_singleton ws w ih =>
    rw [countsOf_append, ih]
    by_cases h : w ∈ ws
    · have hmemF : w ∈ firstOccur ws :=
        (mem_firstOccurAux ws [] w).mpr ⟨h, List.not_mem_nil w⟩
      have hF : firstOccur (ws ++ [w]) = firstOccur ws := by
        unfold firstOccur
        rw [firstOccurAux_append ws [] w, if_pos (Or.inr h), List.append_nil]
      rw [bumpCount_map_mem w _ (firstOccur ws) (nodup_firstOccurAux ws []) hmemF, hF]
      apply List.map_congr_left
      intro x hx
      rw [countOcc_append]
      by_cases hxw : x = w
      · rw [if_pos hxw, if_pos hxw.symm]
      · rw [if_neg hxw, if_neg (fun e => hxw e.symm), Nat.add_zero]
    · have hnmF : w ∉ firstOccur ws :=
        fun hc => h ((mem_firstOccurAux ws [] w).mp hc).1
      have hF : firstOccur (ws ++ [w]) = firstOccur ws ++ [w] := by
        unfold firstOccur
        rw [firstOccurAux_append ws [] w, if_neg ?_]
        rintro (h1 | h1)
        · exact List.not_mem_nil w h1
        · exact h h1
      rw [bumpCount_map_notMem w _ (firstOccur ws) hnmF, hF, List.map_append]
      congr 1
      · apply List.map_congr_left
        intro x hx
        have hxs : x ∈ ws := ((mem_firstOccurAux ws [] x).mp hx).1
        have hwx : ¬(w = x) := fun e => h (e ▸ hxs)
        rw [countOcc_append, if_neg hwx, Nat.add_zero]
      · simp [countOcc_append, countOcc_eq_zero w ws h]

theorem filter_map_fst (g : List Char → Nat) :
    ∀ (l : List (List Char)),
      ((l.map (fun x => (x, g x))).filter (fun p => decide (25 < p.2))).map Prod.fst =
        l.filter (fun x => decide (25 < g x)) := by
  intro l
  induction l with
  | nil => rfl
  | cons x l ih =>
    by_cases h : 25 < g x <;> simp [List.filter_cons, h, ih]

/-- The repeated list of the source equals the repeated tokens in
first-occurrence order. -/
theorem repeatedOf_eq (cs : List Char) :
    repeatedOf cs =
      (firstOccur (wordsOf cs)).filter
        (fun w => decide (25 < countOcc w (wordsOf cs))) := by
  unfold repeatedOf
  rw [countsOf_eq, filter_map_fst]

/-- A token is in the repeated list exactly when it occurs more than 25
times among the words. -/
theorem mem_repeatedOf (cs w : List Char) :
    w ∈ repeatedOf cs ↔ 25 < countOcc w (wordsOf cs) := by
  rw [repeatedOf_eq, List.mem_filter]
  constructor
  · rintro ⟨_, h⟩
    exact of_decide_eq_true h
  · intro h
    refine ⟨?_, decide_eq_true h⟩
    refine (mem_firstOccurAux (wordsOf cs) [] w).mpr ⟨?_, List.not_mem_nil w⟩
    exact mem_of_countOcc_pos w (wordsOf cs) (by omega)

-- ── Shared lemmas about check_fraud ──────────────────────────────────

theorem status_iff_score (text fname : List Char) (y : Nat) :
    (check_fraud text fname y).fraud_status = FraudStatus.Suspicious ↔
      50 ≤ (check_fraud text fname y).fraud_score := by
  unfold check_fraud
  split
  · simp
  · dsimp only
    split
    next h => simp [h]
    next h => simp [h]

theorem filter_isRep_base (cs : List Char) (y : Nat) :
    (baseReasons cs y).filter isRepReason = (repetitionRule cs).2 := by
  have h1 : ((ghPresence (githubSearch cs)).2).filter isRepReason = [] := by
    cases githubSearch cs <;> simp [ghPresence, isRepReason]
  have h2 : ((liPresence (linkedinSearch cs)).2).filter isRepReason = [] := by
    cases linkedinSearch cs <;> simp [liPresence, isRepReason]
  have h3 : ((ghConsistency (githubSearch cs) (extract_name cs)).2).filter isRepReason = [] := by
    cases githubSearch cs with
    | none => simp [ghConsistency]
    | some u =>
      simp only [ghConsistency]
      split <;> simp [isRepReason]
  have h4 : ((liConsistency (linkedinSearch cs) (extract_name cs)).2).filter isRepReason = [] := by
    cases linkedinSearch cs with
    | none => simp [liConsistency]
    | some u =>
      simp only [liConsistency]
      split <;> simp [isRepReason]
  have h5 : ((futureGradRule (extract_graduation_year cs) y).2).filter isRepReason = [] := by
    cases extract_graduation_year cs with
    | none => simp [futureGradRule]
    | some g =>
      simp only [futureGradRule]
      split <;> simp [isRepReason]
  have h6 : ((timelineRule (extract_graduation_year cs) (extract_experience_years cs) y).2).filter
      isRepReason = [] := by
    cases extract_graduation_year cs with
    | none => cases extract_experience_years cs <;> simp [timelineRule]
    | some g =>
      cases extract_experience_years cs with
      | none => simp [timelineRule]
      | some e =>
        simp only [timelineRule]
        split_ifs <;> simp [isRepReason]
  have h7 : ((repetitionRule cs).2).filter isRepReason = (repetitionRule cs).2 := by
    simp only [repetitionRule]
    split <;> simp [isRepReason]
  unfold baseReasons
  simp only [List.filter_append, h1, h2, h3, h4, h5, h6, h7, List.nil_append]

theorem filter_isRep_override (e : Option Nat) :
    (overrideReasons e).filter isRepReason = [] := by
  cases e with
  | none => rfl
  | some v =>
    simp only [overrideReasons]
    split <;> simp [isRepReason]

-- ── Claim theorems ───────────────────────────────────────────────────

/-- C1: the specification says the graduation year used by the timeline
rules is the minimum 4-digit token of the text beginning with 19 or 20
inside the range 1970..2099 and is absent exactly when no such token
occurs.  On the code this fails: findall over a pattern whose only group is
the leading alternation yields the strings 19 or 20, never the full year,
so the range filter removes everything and the extractor returns none for
every input — even for c1Text, which contains the year 2020. -/
theorem claim1_grad_year_always_none :
    (∀ text : List Char, extract_graduation_year text = none) ∧
      yearFindAll false c1Text = [20] :=
  ⟨grad_none, by decide⟩

/-- C2: the specification expects the John Smith scenario resume, with the
current year fixed at 2024, to fire only the timeline-mismatch rule and
score 30.  The code returns score 0 with no reasons: the graduation year
extractor always returns none, so the timeline rule cannot fire. -/
theorem claim2_scenario_eval :
    check_fraud c2Text ("resume.pdf").data 2024 =
      { filename := ("resume.pdf").data
        fraud_score := 0
        fraud_status := FraudStatus.Genuine
        reasons := []
        extracted_preview := c2Text } := by
  decide

/-- C3: when the trimmed input length is below 50, check_fraud returns
exactly the short-text report: score 100, status Suspicious, the single
short-text reason, and the 300-character preview. -/
theorem claim3_short_circuit (text fname : List Char) (y : Nat)
    (h : (pyStrip text).length < 50) :
    check_fraud text fname y =
      { filename := fname
        fraud_score := 100
        fraud_status := FraudStatus.Suspicious
        reasons := [Reason.shortText]
        extracted_preview := text.take 300 } := by
  unfold check_fraud
  rw [if_pos h]

theorem claim3_witness :
    (pyStrip ("too short").data).length < 50 ∧
      check_fraud ("too short").data ("resume.pdf").data 2024 =
        { filename := ("resume.pdf").data
          fraud_score := 100
          fraud_status := FraudStatus.Suspicious
          reasons := [Reason.shortText]
          extracted_preview := (("too short").data).take 300 } :=
  ⟨by decide, claim3_short_circuit (("too short").data) (("resume.pdf").data) 2024 (by decide)⟩

/-- C4: for every input text, filename and current year, the fraud score of
the report is an integer between 0 and 100. -/
theorem claim4_score_range (text fname : List Char) (y : Nat) :
    0 ≤ (check_fraud text fname y).fraud_score ∧
      (check_fraud text fname y).fraud_score ≤ 100 := by
  refine ⟨Nat.zero_le _, ?_⟩
  unfold check_fraud
  split
  · simp
  · dsimp only
    exact Nat.min_le_right _ 100

/-- C5: the status is Suspicious exactly when the score is at least 50, on
the short-circuit path as well as on the full-analysis path. -/
theorem claim5_status_iff (text fname : List Char) (y : Nat) :
    (check_fraud text fname y).fraud_status = FraudStatus.Suspicious ↔
      50 ≤ (check_fraud text fname y).fraud_score :=
  status_iff_score text fname y

/-- C6: a long-enough text with no GitHub and no LinkedIn match, no
repeated words and no unrealistic experience claim scores exactly 50, is
Suspicious, and carries exactly the two missing-profile reasons in order;
each absence contributes 25 independently.  The other rules cannot fire
here: the consistency rules need a found handle, and the timeline rules
need a graduation year, which the extractor never produces. -/
theorem claim6_missing_both (text fname : List Char) (y : Nat)
    (hlen : 50 ≤ (pyStrip text).length)
    (hgh : githubSearch text = none)
    (hli : linkedinSearch text = none)
    (hrep : repeatedOf text = [])
    (hexp : ∀ e, extract_experience_years text = some e → e ≤ 40) :
    check_fraud text fname y =
      { filename := fname
        fraud_score := 50
        fraud_status := FraudStatus.Suspicious
        reasons := [Reason.missingGithub, Reason.missingLinkedin]
        extracted_preview := text.take 300 } ∧
      ghPresence none = (25, [Reason.missingGithub]) ∧
      liPresence none = (25, [Reason.missingLinkedin]) := by
  refine ⟨?_, rfl, rfl⟩
  have hns : ¬((pyStrip text).length < 50) := by omega
  have hbs : baseScore text y = 50 := by
    unfold baseScore
    rw [hgh, hli, grad_none]
    simp [ghPresence, liPresence, ghConsistency, liConsistency, futureGradRule,
      timelineRule, repetitionRule, hrep]
  have hov : overrideScore (baseScore text y) (extract_experience_years text) = 50 := by
    rw [hbs]
    cases extract_experience_years text with
    | none => rfl
    | some e =>
      simp only [overrideScore]
      split_ifs <;> simp
  have hor : overrideReasons (extract_experience_years text) = [] := by
    cases he : extract_experience_years text with
    | none => rfl
    | some e =>
      have h40 := hexp e he
      simp only [overrideReasons]
      rw [if_neg ?_]
      rintro ⟨_, hgt⟩
      omega
  have hbr : baseReasons text y = [Reason.missingGithub, Reason.missingLinkedin] := by
    unfold baseReasons
    rw [hgh, hli, grad_none]
    simp [ghPresence, liPresence, ghConsistency, liConsistency, futureGradRule,
      timelineRule, repetitionRule, hrep]
  unfold check_fraud
  rw [if_neg hns]
  dsimp only
  rw [hov, hbr, hor]
  rfl

theorem claim6_witness :
    50 ≤ (pyStrip c6Text).length ∧
      check_fraud c6Text ("f.pdf").data 2024 =
        { filename := ("f.pdf").data
          fraud_score := 50
          fraud_status := FraudStatus.Suspicious
          reasons := [Reason.missingGithub, Reason.missingLinkedin]
          extracted_preview := c6Text.take 300 } :=
  ⟨by decide,
   (claim6_missing_both c6Text (("f.pdf").data) 2024 (by decide) (by decide) (by decide)
      (by decide)
      (fun e he => by
        rw [show extract_experience_years c6Text = none from by decide] at he
        exact Option.noConfusion he)).1⟩

/-- C7: a token occurring exactly 25 times never triggers the repetition
rule while one occurring 26 times always does; whenever any token is
repeated, the report carries exactly one repetition reason naming the take
of the first 5 repeated tokens, and the rule contributes a flat 15 once,
not once per repeated token. -/
theorem claim7_repetition_boundary (text fname : List Char) (y : Nat) (w : List Char)
    (hlen : 50 ≤ (pyStrip text).length) :
    (countOcc w (wordsOf text) = 25 → w ∉ repeatedOf text) ∧
      (countOcc w (wordsOf text) = 26 → w ∈ repeatedOf text) ∧
      ((check_fraud text fname y).reasons.filter isRepReason =
        if repeatedOf text = [] then []
        else [Reason.excessRepetition ((repeatedOf text).take 5)]) ∧
      (repetitionRule text).1 = (if repeatedOf text = [] then 0 else 15) := by
  have hns : ¬((pyStrip text).length < 50) := by omega
  refine ⟨?_, ?_, ?_, ?_⟩
  · intro h hc
    rw [mem_repeatedOf] at hc
    omega
  · intro h
    rw [mem_repeatedOf]
    omega
  · unfold check_fraud
    rw [if_neg hns]
    dsimp only
    rw [List.filter_append, filter_isRep_base, filter_isRep_override, List.append_nil]
    by_cases h : repeatedOf text = [] <;> simp [repetitionRule, h]
  · by_cases h : repeatedOf text = [] <;> simp [repetitionRule, h]

theorem claim7_witness :
    50 ≤ (pyStrip c7Text).length ∧
      countOcc (("skill").data) (wordsOf c7Text) = 26 ∧
      (("skill").data) ∈ repeatedOf c7Text ∧
      ((check_fraud c7Text ("f.pdf").data 2024).reasons.filter isRepReason =
        if repeatedOf c7Text = [] then []
        else [Reason.excessRepetition ((repeatedOf c7Text).take 5)]) :=
  ⟨by decide, by decide,
   (claim7_repetition_boundary c7Text (("f.pdf").data) 2024 (("skill").data)
      (by decide)).2.1 (by decide),
   (claim7_repetition_boundary c7Text (("f.pdf").data) 2024 (("skill").data)
      (by decide)).2.2.1⟩

/-- C8: when the extracted experience figure exceeds 40, the final score is
at least 50 and the status Suspicious; the override is the floor max of the
additive total and 50, applied before the clip to 100, not an additive
bonus. -/
theorem claim8_override_floor (text fname : List Char) (y : Nat) (e : Nat)
    (hlen : 50 ≤ (pyStrip text).length)
    (hexp : extract_experience_years text = some e)
    (h40 : 40 < e) :
    (check_fraud text fname y).fraud_status = FraudStatus.Suspicious ∧
      50 ≤ (check_fraud text fname y).fraud_score ∧
      (check_fraud text fname y).fraud_score = min (max (baseScore text y) 50) 100 := by
  have hns : ¬((pyStrip text).length < 50) := by omega
  have hsc : (check_fraud text fname y).fraud_score = min (max (baseScore text y) 50) 100 := by
    unfold check_fraud
    rw [if_neg hns]
    dsimp only
    rw [hexp]
    simp only [overrideScore]
    rw [if_pos ⟨by omega, h40⟩]
  have h50 : 50 ≤ (check_fraud text fname y).fraud_score := by
    rw [hsc]
    omega
  exact ⟨(status_iff_score text fname y).mpr h50, h50, hsc⟩

theorem claim8_witness :
    50 ≤ (pyStrip c8Text).length ∧
      extract_experience_years c8Text = some 42 ∧
      (check_fraud c8Text ("f.pdf").data 2024).fraud_status = FraudStatus.Suspicious ∧
      (check_fraud c8Text ("f.pdf").data 2024).fraud_score = 50 :=
  ⟨by decide, by decide,
   (claim8_override_floor c8Text (("f.pdf").data) 2024 42 (by decide) (by decide)
      (by decide)).1,
   by decide⟩

/-- C9: check_fraud is a total function: every input text, filename and
current year yields a report, whose filename is passed through unchanged
and whose preview is the first 300 characters of the input.  Every helper
of the embedding is itself total, mirroring the absence of failure modes in
the source. -/
theorem claim9_total (text fname : List Char) (y : Nat) :
    ∃ r : FraudReport, check_fraud text fname y = r ∧ r.filename = fname ∧
      r.extracted_preview = text.take 300 := by
  refine ⟨check_fraud text fname y, rfl, ?_, ?_⟩ <;>
    (unfold check_fraud; split <;> rfl)

/-- C10: the repeated tokens of the repetition rule are produced in
first-occurrence order: the repeated list equals the words in order of
first occurrence filtered to those occurring more than 25 times, so for a
fixed input the repetition reason is uniquely determined. -/
theorem claim10_first_occurrence_order (text : List Char) :
    repeatedOf text =
      (firstOccur (wordsOf text)).filter
        (fun w => decide (25 < countOcc w (wordsOf text))) :=
  repeatedOf_eq text
